import Mathlib

set_option maxHeartbeats 1000000

namespace RethSpec

/-! Shallow embedding of the reth discovery-v5 configuration and handle
(crates/net/discv5/src/lib.rs, crates/net/discv5/src/config.rs) and of the
parallel block executor (crates/revm/revm-parallel/src/executor.rs).
External collaborators (the discv5 Kademlia library, the EVM, ENR and enode
parsers, the shared-state and queue helper crates) are either parameters of
the definitions, or modelled from the specification where noted. -/

/-! ## Discovery: data model -/

/-- An IP address tagged with its version. -/
inductive Ip where
  | v4 (addr : Nat) : Ip
  | v6 (addr : Nat) : Ip
deriving DecidableEq

/-- Local IP mode of the discovery node, re-exported from the discv5 crate. -/
inductive IpMode where
  | ip4
  | ip6
  | dualStack
deriving DecidableEq

/-- A signed node record (ENR), abstracted to the fields that
`try_into_reachable` and `get_fork_id` read: the optional IPv4/IPv6 UDP
sockets (address and port), the optional TCP ports, and the public key. -/
structure Enr where
  udp4Socket : Option (Nat × Nat)
  udp6Socket : Option (Nat × Nat)
  tcp4 : Option Nat
  tcp6 : Option Nat
  pk : Nat
deriving DecidableEq

/-- Peer-level conversion errors of the discv5 handle (lib.rs `Error`),
restricted to the four cases surfaced by `try_into_reachable`. -/
inductive DiscError where
  | unreachableDiscovery (enr : Enr)
  | unreachableMempool (enr : Enr)
  | ipVersionMismatchDiscovery (enr : Enr) (mode : IpMode)
  | ipVersionMismatchMempool (enr : Enr) (mode : IpMode)
deriving DecidableEq

/-- Legacy discovery-v4 node record produced by the converter. -/
structure NodeRecordL where
  address : Ip
  tcpPort : Nat
  udpPort : Nat
  id : Nat
deriving DecidableEq

/-- Modelled from the spec: `IpMode::get_contactable_addr` of the external
discv5 crate. Selects the UDP socket of the record that matches the local IP
mode; on DualStack, IPv6 is preferred for discovery contact, falling back to
IPv4. -/
def getContactableAddr (mode : IpMode) (enr : Enr) : Option (Ip × Nat) :=
  match mode with
  | IpMode.ip4 => enr.udp4Socket.map fun s => (Ip.v4 s.1, s.2)
  | IpMode.ip6 => enr.udp6Socket.map fun s => (Ip.v6 s.1, s.2)
  | IpMode.dualStack =>
      match enr.udp6Socket with
      | some s => some (Ip.v6 s.1, s.2)
      | none => enr.udp4Socket.map fun s => (Ip.v4 s.1, s.2)

/-- TCP port selection of `try_into_reachable` (lib.rs lines 105-110): since
the local ENR sets tcp4 for `IpMode::Dual`, tcp4 is preferred on DualStack. -/
def tcpSel (mode : IpMode) (enr : Enr) : Option Nat :=
  match mode with
  | IpMode.ip4 => enr.tcp4
  | IpMode.dualStack => enr.tcp4
  | IpMode.ip6 => enr.tcp6

/-- Embedding of `HandleDiscv5::try_into_reachable` (lib.rs lines 95-115).
The uncompressed-id derivation (enr.rs, an external helper here) is a
parameter. -/
def tryIntoReachable (uncompressedIdFromEnrPk : Nat → Nat) (mode : IpMode) (enr : Enr) :
    Except DiscError NodeRecordL :=
  if enr.udp4Socket = none ∧ enr.udp6Socket = none then
    Except.error (DiscError.unreachableDiscovery enr)
  else
    match getContactableAddr mode enr with
    | none => Except.error (DiscError.ipVersionMismatchDiscovery enr mode)
    | some udpSocket =>
        match tcpSel mode enr with
        | none => Except.error (DiscError.ipVersionMismatchMempool enr mode)
        | some tcpPort =>
            Except.ok { address := udpSocket.1, tcpPort := tcpPort,
                        udpPort := udpSocket.2, id := uncompressedIdFromEnrPk enr.pk }

/-! ## Discovery: boot-node parsing -/

/-- Multiaddress protocol components pushed by `add_enode_boot_nodes`
(the external multiaddr crate, modelled structurally: the rendered string's
components in order). -/
inductive MultiaddrPart where
  | ip4 (addr : Nat)
  | ip6 (addr : Nat)
  | udp (port : Nat)
  | p2p (peerId : String)
deriving DecidableEq

/-- A boot node (config.rs `BootNode`): an unsigned enode stored as its
multiaddress, or a signed record. -/
inductive BootNode where
  | enode (multiaddr : List MultiaddrPart)
  | enr (record : Enr)
deriving DecidableEq

/-- Modelled from the spec: insertion into the `HashSet` bootstrap set,
as a duplicate-free list. -/
def insertBootNode (nodes : List BootNode) (node : BootNode) : List BootNode :=
  if node ∈ nodes then nodes else nodes ++ [node]

/-- Splitting a character list on every comma, keeping empty segments, as
Rust `str::split(&[','])` does. -/
def splitCommaChars : List Char → List (List Char)
  | [] => [[]]
  | c :: cs =>
      match splitCommaChars cs with
      | [] => if c = ',' then [[], []] else [[c]]
      | cur :: rest => if c = ',' then [] :: cur :: rest else (c :: cur) :: rest

/-- Splitting a string on every comma, keeping empty segments. -/
def splitComma (s : String) : List String :=
  (splitCommaChars s.data).map fun l => String.mk l

/-- Trimming leading and trailing whitespace, as Rust `str::trim` does. -/
def trimStr (s : String) : String :=
  String.mk (((s.data.dropWhile Char.isWhitespace).reverse.dropWhile Char.isWhitespace).reverse)

/-- Embedding of `DiscV5ConfigBuilder::add_serialized_boot_nodes`
(config.rs lines 84-92): split the input on commas, trim each item, parse it
as a signed record, and insert every successfully parsed record into the
bootstrap set; items that fail to parse are dropped. The ENR text decoder is
external and therefore a parameter. -/
def addSerializedBootNodes (parseEnr : String → Option Enr) (enrs : String)
    (bootstrapNodes : List BootNode) : List BootNode :=
  (splitComma enrs).foldl
    (fun nodes item =>
      match parseEnr (trimStr item) with
      | some node => insertBootNode nodes (BootNode.enr node)
      | none => nodes)
    bootstrapNodes

/-- An enode URI parsed into its node record: the fields of
`AnyNode::NodeRecord` that `add_enode_boot_nodes` destructures. -/
structure EnodeRecord where
  address : Ip
  udpPort : Nat
  id : Nat
deriving DecidableEq

/-- Multiaddress built by `add_enode_boot_nodes` (config.rs lines 101-109):
push the ip protocol matching the address version, then the udp port, then
the p2p peer id derived from the uncompressed public key. The canonical
peer-id encoding is external and therefore a parameter. -/
def enodeMultiaddr (peerId : Nat → String) (r : EnodeRecord) : List MultiaddrPart :=
  (match r.address with
   | Ip.v4 a => [MultiaddrPart.ip4 a]
   | Ip.v6 a => [MultiaddrPart.ip6 a]) ++
  [MultiaddrPart.udp r.udpPort, MultiaddrPart.p2p (peerId r.id)]

/-- Embedding of `DiscV5ConfigBuilder::add_enode_boot_nodes`
(config.rs lines 95-115): split the input on commas, parse each item as an
enode URI, and insert the multiaddress of every successfully parsed record
into the bootstrap set. The enode URI parser is external and therefore a
parameter. -/
def addEnodeBootNodes (parseEnode : String → Option EnodeRecord) (peerId : Nat → String)
    (enodes : String) (bootstrapNodes : List BootNode) : List BootNode :=
  (splitComma enodes).foldl
    (fun nodes node =>
      match parseEnode node with
      | some r => insertBootNode nodes (BootNode.enode (enodeMultiaddr peerId r))
      | none => nodes)
    bootstrapNodes

/-! ## Parallel executor: data model -/

/-- A per-transaction state diff: account address to new account value. The
account database is abstracted to a balance-like value per address; commit
overwrites it, increments add to it. -/
abbrev TxState := List (Nat × Nat)

/-- EVM execution result of one transaction (revm `ExecutionResult`,
abstracted to the fields the executor reads: gas used, success flag, logs). -/
structure ExecResult where
  gasUsed : Nat
  success : Bool
  logs : List Nat
deriving DecidableEq, Inhabited

/-- revm `ResultAndState`: the execution result plus the state diff. -/
structure ResultAndState where
  result : ExecResult
  state : TxState
deriving DecidableEq, Inhabited

/-- A signed transaction, abstracted to the fields the executor reads
directly (the payload itself is only ever handed to the external EVM). -/
structure Tx where
  hash : Nat
  txType : Nat
deriving DecidableEq, Inhabited

/-- Receipt built by `execute_inner` (executor.rs lines 228-236). -/
structure Receipt where
  txType : Nat
  success : Bool
  cumulativeGasUsed : Nat
  logs : List Nat
deriving DecidableEq, Inhabited

/-- Block execution errors (reth `BlockExecutionError` and
`BlockValidationError`, restricted to the cases this executor produces).
`panicErr` stands for the `unwrap` panics on missing senders or
out-of-range transaction indices. -/
inductive ExecError where
  | evmErr (hash : Nat) (error : Nat)
  | blockGasUsed (got : Nat) (expected : Nat) (gasSpentByTx : List (Nat × Nat))
  | incrementBalanceFailed
  | panicErr
  | other (code : Nat)
deriving DecidableEq

/-- Operations performed on the shared state, recorded as a trace so that
frame properties (which operations a code path performs) are statable. -/
inductive StateOp where
  | setFlag (b : Bool)
  | commit (pairs : List (Nat × TxState))
  | drain (addrs : List Nat)
  | increment (incs : List (Nat × Nat))
  | merge (retention : Nat)
  | takeBundle
deriving DecidableEq

/-- Setting an account value in the account map. -/
def setAccount : List (Nat × Nat) → Nat → Nat → List (Nat × Nat)
  | [], addr, v => [(addr, v)]
  | (a, w) :: rest, addr, v =>
      if a = addr then (a, v) :: rest else (a, w) :: setAccount rest addr v

/-- Reading an account balance, zero when absent. -/
def getBalance (accs : List (Nat × Nat)) (addr : Nat) : Nat :=
  (accs.lookup addr).getD 0

/-- Modelled from the spec: the lockable shared state (shared.rs is not part
of the sources here). It wraps the account map, the state-clear flag, and an
operation trace. Commits are applied in the order of the list they are
passed in. -/
structure SharedState where
  accounts : List (Nat × Nat)
  stateClear : Bool
  ops : List StateOp
deriving DecidableEq

/-- Applying one transaction state diff to the account map. -/
def applyDiff (accs : List (Nat × Nat)) (diff : TxState) : List (Nat × Nat) :=
  diff.foldl (fun m p => setAccount m p.1 p.2) accs

/-- Modelled from the spec: `SharedState::commit` applies the buffered
per-transaction diffs in list order. -/
def SharedState.commit (st : SharedState) (pairs : List (Nat × TxState)) : SharedState :=
  { accounts := pairs.foldl (fun m p => applyDiff m p.2) st.accounts,
    stateClear := st.stateClear,
    ops := st.ops ++ [StateOp.commit pairs] }

/-- Modelled from the spec: `SharedState::set_state_clear_flag`. -/
def SharedState.setStateClearFlag (st : SharedState) (b : Bool) : SharedState :=
  { st with stateClear := b, ops := st.ops ++ [StateOp.setFlag b] }

/-- Sequentially reading and zeroing the balances of a list of addresses. -/
def drainLoop : List (Nat × Nat) → List Nat → (List Nat × List (Nat × Nat))
  | accs, [] => ([], accs)
  | accs, a :: rest =>
      let bal := getBalance accs a
      let step := drainLoop (setAccount accs a 0) rest
      (bal :: step.1, step.2)

/-- Modelled from the spec: `SharedState::drain_balances` for the DAO fork.
The database here is a pure map, so draining cannot fail; the Rust code maps
database errors to `IncrementBalanceFailed`. -/
def SharedState.drainBalances (st : SharedState) (addrs : List Nat) :
    (List Nat × SharedState) :=
  let step := drainLoop st.accounts addrs
  (step.1, { accounts := step.2, stateClear := st.stateClear,
             ops := st.ops ++ [StateOp.drain addrs] })

/-- Modelled from the spec: `SharedState::increment_balances`. -/
def SharedState.incrementBalances (st : SharedState) (incs : List (Nat × Nat)) : SharedState :=
  { accounts := incs.foldl (fun m p => setAccount m p.1 (getBalance m p.1 + p.2)) st.accounts,
    stateClear := st.stateClear,
    ops := st.ops ++ [StateOp.increment incs] }

/-- Modelled from the spec: `SharedState::merge_transitions` folds pending
transitions into the bundle under the retention policy; on the account-map
abstraction it is recorded in the trace. -/
def SharedState.mergeTransitions (st : SharedState) (retention : Nat) : SharedState :=
  { st with ops := st.ops ++ [StateOp.merge retention] }

/-- Modelled from the spec: `SharedState::take_bundle` hands out the bundle
built so far. -/
def SharedState.takeBundleF (st : SharedState) : (List (Nat × Nat) × SharedState) :=
  (st.accounts, { st with ops := st.ops ++ [StateOp.takeBundle] })

/-- Modelled from the spec: `ExecutionData` (reth_revm_executor), restricted
to the fields `execute_inner`, `save_receipts` and `take_output_state`
read or write: the accumulated per-block receipts and the first executed
block. -/
structure ExecutionData where
  receipts : List (List (Option Receipt))
  firstBlock : Option Nat
deriving DecidableEq

/-- A block, abstracted to the header fields and body the executor reads.
Ommers, withdrawals, difficulty and beneficiary only flow into the external
`post_block_balance_increments`, which receives the whole block here. -/
structure Block where
  number : Nat
  timestamp : Nat
  gasUsed : Nat
  parentBeaconBlockRoot : Option Nat
  body : List Tx
deriving DecidableEq, Inhabited

/-- External collaborators of the executor, as stated contracts: the EVM
transact function (reading a database snapshot), the env builder, the
beacon-root system call, chain-spec queries, the post-block balance
increments, and receipt pruning. All are deterministic functions of their
inputs. -/
structure ExecCtx where
  transact : Nat → Tx → Nat → List (Nat × Nat) → Except Nat ResultAndState
  fillCfgAndBlockEnv : Block → Nat → Nat
  beaconRootCall : Nat → Nat → Option Nat → List (Nat × Nat) → Except ExecError (Option TxState)
  stateClearEnabled : Nat → Bool
  daoTransitionsAt : Nat → Bool
  daoAccounts : List Nat
  daoBeneficiary : Nat
  postBlockBalanceIncrements : Block → Nat → List (Nat × Nat)
  retentionForBlock : Nat → Nat
  pruneReceipts : List (Option Receipt) → Except ExecError (List (Option Receipt))

/-- The parallel executor: the block-queue store (block number to ordered
batches of transaction indices, modelled from the spec as queue.rs is not
among the sources), the execution data, and the shared state. -/
structure Executor where
  store : Nat → Option (List (List Nat))
  data : ExecutionData
  state : SharedState

/-! ## FuturesOrdered: worker jobs complete in arbitrary order, results are
yielded in push order. Each job value is a pure function of the pre-batch
snapshot, so it does not depend on scheduling; the collection order is
simulated explicitly against an arbitrary completion order. -/

/-- Yield every buffered value from index `k` on whose index has already
completed (is in `done`), stopping at the first pending index. -/
def foAdvance (values : List α) (done : List Nat) : Nat → Nat → List α
  | 0, _ => []
  | fuel + 1, k =>
      if h : k < values.length ∧ k ∈ done then
        values.get ⟨k, h.1⟩ :: foAdvance values done fuel (k + 1)
      else []

/-- Run the `FuturesOrdered` collection loop: jobs complete in the order
given by `completion`; after each completion, every result up to the first
still-pending index is yielded. -/
def foRun (values : List α) : List Nat → List Nat → Nat → List α
  | [], _, _ => []
  | j :: rest, done, k =>
      let y := foAdvance values (j :: done) values.length k
      y ++ foRun values rest (j :: done) (k + y.length)

/-! ## Parallel executor: operations -/

/-- The worker jobs spawned for a batch (executor.rs lines 96-114): one per
transaction index, each transacting against the shared pre-batch snapshot.
`none` models the `unwrap` panic on an out-of-range index. Each job carries
its transaction index and hash for error attribution. -/
def jobsOf (ctx : ExecCtx) (st : SharedState) (env : Nat) (batch : List Nat)
    (txs : List Tx) (senders : List Nat) :
    Option (List (Nat × Nat × Except Nat ResultAndState)) :=
  if batch.all (fun i => decide (i < txs.length) && decide (i < senders.length)) then
    some (batch.map fun i =>
      (i, (txs.getD i default).hash,
        ctx.transact env (txs.getD i default) (senders.getD i 0) st.accounts))
  else none

/-- The collection loop of `execute_batch` (executor.rs lines 116-124): walk
the yielded results, recording `(tx_idx, result)` and buffering
`(tx_idx, state)`, stopping at the first EVM failure with its hash. -/
def collectJobs :
    List (Nat × Nat × Except Nat ResultAndState) →
    Except (Nat × Nat) (List (Nat × ExecResult) × List (Nat × TxState))
  | [] => Except.ok ([], [])
  | (_, h, Except.error e) :: _ => Except.error (h, e)
  | (i, _, Except.ok ras) :: rest =>
      (collectJobs rest).map fun p => ((i, ras.result) :: p.1, (i, ras.state) :: p.2)

/-- Embedding of `ParallelExecutor::execute_batch` (executor.rs lines
89-128): spawn one job per batch index against the shared pre-batch
snapshot, collect the results in push order regardless of the completion
order, and commit the buffered states; on an EVM failure return
`Validation(EVM)` with the failing hash and leave the state untouched.
The state is returned alongside the result, as the Rust method mutates the
executor in place. -/
def executeBatch (ctx : ExecCtx) (st : SharedState) (env : Nat) (batch : List Nat)
    (txs : List Tx) (senders : List Nat) (completion : List Nat) :
    (Except ExecError (List (Nat × ExecResult)) × SharedState) :=
  match jobsOf ctx st env batch txs senders with
  | none => (Except.error ExecError.panicErr, st)
  | some jobs =>
      match collectJobs (foRun jobs completion [] 0) with
      | Except.error he => (Except.error (ExecError.evmErr he.1 he.2), st)
      | Except.ok p => (Except.ok p.1, st.commit p.2)

/-- The batch loop of `execute_inner` (executor.rs lines 211-221): run each
batch in order against the state left by the previous one, extending the
result list; `senders.as_ref().unwrap()` panics when senders are absent and
a batch is about to run. `k` numbers the batches so each gets its own worker
completion order. -/
def runQueue (ctx : ExecCtx) :
    SharedState → Nat → List (List Nat) → List Tx → Option (List Nat) →
    (Nat → List Nat) → Nat →
    (Except ExecError (List (Nat × ExecResult)) × SharedState)
  | st, _, [], _, _, _, _ => (Except.ok [], st)
  | st, env, batch :: batches, txs, sendersOpt, scheds, k =>
      match sendersOpt with
      | none => (Except.error ExecError.panicErr, st)
      | some senders =>
          match executeBatch ctx st env batch txs senders (scheds k) with
          | (Except.error e, st1) => (Except.error e, st1)
          | (Except.ok rs, st1) =>
              match runQueue ctx st1 env batches txs sendersOpt scheds (k + 1) with
              | (Except.error e, st2) => (Except.error e, st2)
              | (Except.ok rest, st2) => (Except.ok (rs ++ rest), st2)

/-- Insertion into a list sorted by transaction index. -/
def insertByKey (p : Nat × ExecResult) : List (Nat × ExecResult) → List (Nat × ExecResult)
  | [] => [p]
  | q :: rest => if p.1 ≤ q.1 then p :: q :: rest else q :: insertByKey p rest

/-- The `sort_unstable_by_key` on `tx_idx` (executor.rs line 222), as an
insertion sort; the executor only ever sorts lists with pairwise distinct
keys, where every correct sort agrees. -/
def sortByKey : List (Nat × ExecResult) → List (Nat × ExecResult)
  | [] => []
  | p :: rest => insertByKey p (sortByKey rest)

/-- The receipt-building walk of `execute_inner` (executor.rs lines
224-237): zip the body with the sorted results in index order, accumulating
cumulative gas. Returns the receipts and the final cumulative gas. -/
def buildReceiptsGo : List (Tx × (Nat × ExecResult)) → Nat → (List Receipt × Nat)
  | [], cum => ([], cum)
  | (tx, (_, r)) :: rest, cum =>
      let cum1 := cum + r.gasUsed
      let step := buildReceiptsGo rest cum1
      ({ txType := tx.txType, success := r.success,
         cumulativeGasUsed := cum1, logs := r.logs } :: step.1, step.2)

/-- Receipts and cumulative gas of a block body against sorted results. -/
def buildReceipts (body : List Tx) (results : List (Nat × ExecResult)) :
    (List Receipt × Nat) :=
  buildReceiptsGo (body.zip results) 0

/-- Modelled from the spec: `Receipts::gas_spent_by_tx` (reth_primitives),
the per-transaction gas derived from cumulative differences, reported inside
the `BlockGasUsed` error. -/
def gasSpentByTxGo : List Receipt → Nat → Nat → List (Nat × Nat)
  | [], _, _ => []
  | r :: rest, idx, prev =>
      (idx, r.cumulativeGasUsed - prev) :: gasSpentByTxGo rest (idx + 1) r.cumulativeGasUsed

/-- Per-transaction gas spent, derived from a block's receipts. -/
def gasSpentByTx (rs : List Receipt) : List (Nat × Nat) :=
  gasSpentByTxGo rs 0 0

/-- Adding an amount into a balance-increment map, creating the entry when
absent (`entry().or_default() += amount`). -/
def bumpEntry : List (Nat × Nat) → Nat → Nat → List (Nat × Nat)
  | [], addr, amount => [(addr, amount)]
  | (a, v) :: rest, addr, amount =>
      if a = addr then (a, v + amount) :: rest else (a, v) :: bumpEntry rest addr amount

/-- Embedding of `ParallelExecutor::apply_post_execution_state_change`
(executor.rs lines 132-167): compute the post-block balance increments, on
a DAO transition block drain the hardcoded accounts and credit their sum to
the DAO beneficiary, then apply all increments. The database here is a pure
map, so the increments cannot fail; the Rust code maps database errors to
`IncrementBalanceFailed`. -/
def applyPostExecutionStateChange (ctx : ExecCtx) (st : SharedState) (block : Block)
    (td : Nat) : SharedState :=
  let balanceIncrements := ctx.postBlockBalanceIncrements block td
  if ctx.daoTransitionsAt block.number then
    let drained := st.drainBalances ctx.daoAccounts
    SharedState.incrementBalances drained.2
      (bumpEntry balanceIncrements ctx.daoBeneficiary drained.1.sum)
  else
    st.incrementBalances balanceIncrements

/-- The state-clear-flag step at the top of `execute_inner` (executor.rs
lines 177-178). -/
def preState (ctx : ExecCtx) (ex : Executor) (block : Block) : SharedState :=
  ex.state.setStateClearFlag (ctx.stateClearEnabled block.number)

/-- Committing the beacon-root pre-call diff under index 0 when the call
produced one (executor.rs lines 192-200). -/
def beaconApply (st : SharedState) (ro : Option TxState) : SharedState :=
  match ro with
  | none => st
  | some s => st.commit [(0, s)]

/-- The sequential fallback queue (executor.rs lines 208-210): one singleton
batch per transaction index, in order. -/
def defaultQueue (n : Nat) : List (List Nat) :=
  (List.range n).map fun i => [i]

/-- Embedding of `ParallelExecutor::execute_inner` (executor.rs lines
170-260): set the state-clear flag, build the env, run the beacon-root
pre-call and commit its diff under index 0, return early on an empty body,
run the block queue (or the sequential fallback), sort the results by
transaction index, build receipts and cumulative gas, fail with
`BlockGasUsed` on a header mismatch, apply the post-execution state change,
merge transitions, and set `first_block` when unset. The executor is
returned alongside the result, as the Rust method mutates it in place.
`scheds` gives the worker completion order of each batch. -/
def executeInner (ctx : ExecCtx) (ex : Executor) (block : Block) (td : Nat)
    (sendersOpt : Option (List Nat)) (scheds : Nat → List Nat) :
    (Except ExecError (List Receipt) × Executor) :=
  let st := preState ctx ex block
  match ctx.beaconRootCall block.timestamp block.number block.parentBeaconBlockRoot
      st.accounts with
  | Except.error e => (Except.error e, { ex with state := st })
  | Except.ok ro =>
      let st := beaconApply st ro
      if block.body.isEmpty then (Except.ok [], { ex with state := st })
      else
        let env := ctx.fillCfgAndBlockEnv block td
        let queue := (ex.store block.number).getD (defaultQueue block.body.length)
        match runQueue ctx st env queue block.body sendersOpt scheds 0 with
        | (Except.error e, st1) => (Except.error e, { ex with state := st1 })
        | (Except.ok results, st1) =>
            let rg := buildReceipts block.body (sortByKey results)
            if block.gasUsed ≠ rg.2 then
              (Except.error (ExecError.blockGasUsed rg.2 block.gasUsed (gasSpentByTx rg.1)),
               { ex with state := st1 })
            else
              let st2 := (applyPostExecutionStateChange ctx st1 block td).mergeTransitions
                (ctx.retentionForBlock block.number)
              let data :=
                if ex.data.firstBlock.isNone then
                  { ex.data with firstBlock := some block.number }
                else ex.data
              (Except.ok rg.1, { ex with state := st2, data := data })

/-- Embedding of `ParallelExecutor::save_receipts` (executor.rs lines
263-270): wrap each receipt in `Some`, prune, and push the per-block list. -/
def saveReceipts (ctx : ExecCtx) (ex : Executor) (receipts : List Receipt) :
    (Except ExecError Unit × Executor) :=
  match ctx.pruneReceipts (receipts.map some) with
  | Except.error e => (Except.error e, ex)
  | Except.ok pruned =>
      (Except.ok (),
       { ex with data := { ex.data with receipts := ex.data.receipts ++ [pruned] } })

/-- Embedding of `AsyncBlockExecutor::execute` for the parallel executor
(executor.rs lines 276-284): `execute_inner` then `save_receipts`. -/
def execute (ctx : ExecCtx) (ex : Executor) (block : Block) (td : Nat)
    (sendersOpt : Option (List Nat)) (scheds : Nat → List Nat) :
    (Except ExecError Unit × Executor) :=
  match executeInner ctx ex block td sendersOpt scheds with
  | (Except.error e, ex1) => (Except.error e, ex1)
  | (Except.ok rs, ex1) => saveReceipts ctx ex1 rs

/-- One block submitted to `execute`: the block, its total difficulty, the
recovered senders, and the worker completion orders of its batches. -/
structure BlockJob where
  block : Block
  td : Nat
  senders : Option (List Nat)
  scheds : Nat → List Nat

/-- A sequence of `execute` calls, stopping at the first failure. -/
def executeMany (ctx : ExecCtx) : Executor → List BlockJob → (Except ExecError Unit × Executor)
  | ex, [] => (Except.ok (), ex)
  | ex, job :: rest =>
      match execute ctx ex job.block job.td job.senders job.scheds with
      | (Except.error e, ex1) => (Except.error e, ex1)
      | (Except.ok _, ex1) => executeMany ctx ex1 rest

/-- The output bundle (reth `BundleStateWithReceipts`, restricted to the
fields `take_output_state` fills). -/
structure BundleStateWithReceipts where
  bundle : List (Nat × Nat)
  receipts : List (List (Option Receipt))
  firstBlock : Nat
deriving DecidableEq

/-- Embedding of `AsyncBlockExecutor::take_output_state` (executor.rs lines
313-321): take the bundle, move the accumulated receipts out, and default
the first block number to 0 when unset. -/
def takeOutputState (ex : Executor) : (BundleStateWithReceipts × Executor) :=
  let tb := ex.state.takeBundleF
  ({ bundle := tb.1, receipts := ex.data.receipts,
     firstBlock := ex.data.firstBlock.getD 0 },
   { ex with state := tb.2, data := { ex.data with receipts := [] } })

/-! ## Sequential reference execution (for the refinement claim) -/

/-- Modelled from the spec: a purely sequential in-order execution of the
block body, one transaction at a time, each transacting against the state
left by the previous one and committing its diff immediately. -/
def seqRun (ctx : ExecCtx) :
    SharedState → Nat → List Nat → List Tx → List Nat →
    (Except ExecError (List (Nat × ExecResult)) × SharedState)
  | st, _, [], _, _ => (Except.ok [], st)
  | st, env, i :: rest, txs, senders =>
      if decide (i < txs.length) && decide (i < senders.length) then
        match ctx.transact env (txs.getD i default) (senders.getD i 0) st.accounts with
        | Except.error e =>
            (Except.error (ExecError.evmErr (txs.getD i default).hash e), st)
        | Except.ok ras =>
            match seqRun ctx (st.commit [(i, ras.state)]) env rest txs senders with
            | (Except.error e, st2) => (Except.error e, st2)
            | (Except.ok rest1, st2) => (Except.ok ((i, ras.result) :: rest1), st2)
      else (Except.error ExecError.panicErr, st)

/-- Modelled from the spec: the whole-block pipeline of the sequential
fallback, with the body executed purely sequentially in index order and no
result sorting. This is the reference that `execute_inner` with an absent
queue is compared against. -/
def seqExecuteInnerSpec (ctx : ExecCtx) (ex : Executor) (block : Block) (td : Nat)
    (sendersOpt : Option (List Nat)) :
    (Except ExecError (List Receipt) × Executor) :=
  let st := preState ctx ex block
  match ctx.beaconRootCall block.timestamp block.number block.parentBeaconBlockRoot
      st.accounts with
  | Except.error e => (Except.error e, { ex with state := st })
  | Except.ok ro =>
      let st := beaconApply st ro
      if block.body.isEmpty then (Except.ok [], { ex with state := st })
      else
        let env := ctx.fillCfgAndBlockEnv block td
        match (match sendersOpt with
               | none => (Except.error ExecError.panicErr, st)
               | some senders =>
                   seqRun ctx st env (List.range block.body.length) block.body senders) with
        | (Except.error e, st1) => (Except.error e, { ex with state := st1 })
        | (Except.ok results, st1) =>
            let rg := buildReceipts block.body results
            if block.gasUsed ≠ rg.2 then
              (Except.error (ExecError.blockGasUsed rg.2 block.gasUsed (gasSpentByTx rg.1)),
               { ex with state := st1 })
            else
              let st2 := (applyPostExecutionStateChange ctx st1 block td).mergeTransitions
                (ctx.retentionForBlock block.number)
              let data :=
                if ex.data.firstBlock.isNone then
                  { ex.data with firstBlock := some block.number }
                else ex.data
              (Except.ok rg.1, { ex with state := st2, data := data })

/-! ## Concrete instantiations used by witnesses -/

/-- A trivial external context: every transaction succeeds using 1 gas with
an empty diff, the beacon-root call is inactive, no DAO transition, no
post-block increments, and pruning keeps receipts unchanged. -/
def trivialCtx : ExecCtx where
  transact := fun _ _ _ _ =>
    Except.ok { result := { gasUsed := 1, success := true, logs := [] }, state := [] }
  fillCfgAndBlockEnv := fun _ _ => 0
  beaconRootCall := fun _ _ _ _ => Except.ok none
  stateClearEnabled := fun _ => false
  daoTransitionsAt := fun _ => false
  daoAccounts := []
  daoBeneficiary := 0
  postBlockBalanceIncrements := fun _ _ => []
  retentionForBlock := fun _ => 0
  pruneReceipts := fun rs => Except.ok rs

/-- A context whose EVM fails every transaction with error code 9. -/
def failCtx : ExecCtx :=
  { trivialCtx with transact := fun _ _ _ _ => Except.error 9 }

/-- A fresh shared state over an empty database. -/
def freshState : SharedState where
  accounts := []
  stateClear := false
  ops := []

/-- A fresh executor with an empty queue store. -/
def freshExecutor : Executor where
  store := fun _ => none
  data := { receipts := [], firstBlock := none }
  state := freshState

/-! ## Lemmas: FuturesOrdered yields in push order -/

theorem foAdvance_spec (values : List α) (done : List Nat) :
    ∀ fuel k, k ≤ values.length → values.length - k ≤ fuel →
      values.take k ++ foAdvance values done fuel k
          = values.take (k + (foAdvance values done fuel k).length) ∧
      k + (foAdvance values done fuel k).length ≤ values.length ∧
      (k + (foAdvance values done fuel k).length < values.length →
        (k + (foAdvance values done fuel k).length) ∉ done) := by
  intro fuel
  induction fuel with
  | zero =>
      intro k hk hf
      have hkn : k = values.length := by omega
      subst hkn
      simp [foAdvance]
  | succ fuel ih =>
      intro k hk hf
      by_cases h : k < values.length ∧ k ∈ done
      · have hlt := h.1
        have hstep : foAdvance values done (fuel + 1) k
            = values.get ⟨k, hlt⟩ :: foAdvance values done fuel (k + 1) := by
          simp [foAdvance, h]
        obtain ⟨e1, e2, e3⟩ := ih (k + 1) (by omega) (by omega)
        rw [hstep]
        simp only [List.length_cons]
        have hidx : k + ((foAdvance values done fuel (k + 1)).length + 1)
            = k + 1 + (foAdvance values done fuel (k + 1)).length := by omega
        rw [hidx]
        refine ⟨?_, e2, e3⟩
        have htk : values.take (k + 1) = values.take k ++ [values.get ⟨k, hlt⟩] := by
          rw [List.take_succ]
          simp [List.getElem?_eq_getElem hlt]
        rw [← e1, htk, List.append_assoc, List.singleton_append]
      · have hstep : foAdvance values done (fuel + 1) k = [] := by
          simp only [foAdvance, dif_neg h]
        rw [hstep]
        refine ⟨by simp, by simpa using hk, ?_⟩
        intro hlt
        simp only [List.length_nil, Nat.add_zero] at hlt ⊢
        exact fun hmem => h ⟨hlt, hmem⟩

theorem foRun_take (values : List α) :
    ∀ (completion done : List Nat) (k : Nat),
      k ≤ values.length → (k < values.length → k ∉ done) →
      (∀ i, i < values.length → i ∈ done ∨ i ∈ completion) →
      values.take k ++ foRun values completion done k = values := by
  intro completion
  induction completion with
  | nil =>
      intro done k hk hnd hcov
      have hkn : k = values.length := by
        by_contra hne
        have hlt : k < values.length := lt_of_le_of_ne hk hne
        rcases hcov k hlt with h | h
        · exact hnd hlt h
        · simp at h
      subst hkn
      simp [foRun]
  | cons j rest ih =>
      intro done k hk hnd hcov
      simp only [foRun]
      obtain ⟨e1, e2, e3⟩ :=
        foAdvance_spec values (j :: done) values.length k hk (Nat.sub_le _ _)
      rw [← List.append_assoc, e1]
      refine ih (j :: done) (k + (foAdvance values (j :: done) values.length k).length)
        e2 e3 ?_
      intro i hi
      rcases hcov i hi with h | h
      · exact Or.inl (List.mem_cons_of_mem _ h)
      · rcases List.mem_cons.mp h with rfl | h
        · exact Or.inl (List.mem_cons_self _ _)
        · exact Or.inr h

/-- The FuturesOrdered collection loop yields the job values in push order,
for every completion order that completes every job. -/
theorem foRun_eq_of_cover (values : List α) (completion : List Nat)
    (hcov : ∀ i, i < values.length → i ∈ completion) :
    foRun values completion [] 0 = values := by
  have h := foRun_take values completion [] 0 (Nat.zero_le _) (by simp)
    (fun i hi => Or.inr (hcov i hi))
  simpa using h

/-! ## Lemmas: result collection -/

theorem collectJobs_ok_keys :
    ∀ (jobs : List (Nat × Nat × Except Nat ResultAndState))
      (rs : List (Nat × ExecResult)) (ss : List (Nat × TxState)),
      collectJobs jobs = Except.ok (rs, ss) →
      rs.map Prod.fst = jobs.map Prod.fst ∧ ss.map Prod.fst = jobs.map Prod.fst := by
  intro jobs
  induction jobs with
  | nil =>
      intro rs ss h
      simp only [collectJobs, Except.ok.injEq, Prod.mk.injEq] at h
      obtain ⟨h1, h2⟩ := h
      simp [← h1, ← h2]
  | cons hd tl ih =>
      intro rs ss h
      obtain ⟨i, hsh, out⟩ := hd
      cases out with
      | error e => simp [collectJobs] at h
      | ok ras =>
          simp only [collectJobs] at h
          cases hc : collectJobs tl with
          | error p => rw [hc] at h; simp [Except.map] at h
          | ok p =>
              rw [hc] at h
              simp only [Except.map, Except.ok.injEq, Prod.mk.injEq] at h
              obtain ⟨h1, h2⟩ := h
              obtain ⟨ih1, ih2⟩ := ih p.1 p.2 (by rw [hc])
              subst h1
              subst h2
              simp [ih1, ih2]

theorem collectJobs_error_of_mem :
    ∀ (jobs : List (Nat × Nat × Except Nat ResultAndState))
      (j : Nat × Nat × Except Nat ResultAndState),
      j ∈ jobs → (∃ e, j.2.2 = Except.error e) →
      ∃ h e, collectJobs jobs = Except.error (h, e) ∧
        ∃ j1, j1 ∈ jobs ∧ j1.2.1 = h ∧ j1.2.2 = Except.error e := by
  intro jobs
  induction jobs with
  | nil => intro j hj; simp at hj
  | cons hd tl ih =>
      intro j hj hje
      obtain ⟨i, hsh, out⟩ := hd
      cases out with
      | error e =>
          exact ⟨hsh, e, by simp [collectJobs],
            ⟨(i, hsh, Except.error e), List.mem_cons_self _ _, rfl, rfl⟩⟩
      | ok ras =>
          have hjtl : j ∈ tl := by
            rcases List.mem_cons.mp hj with rfl | h
            · obtain ⟨e, he⟩ := hje; simp at he
            · exact h
          obtain ⟨h, e, hcol, j1, hj1, hj1h, hj1e⟩ := ih j hjtl hje
          refine ⟨h, e, ?_, j1, List.mem_cons_of_mem _ hj1, hj1h, hj1e⟩
          simp only [collectJobs, hcol, Except.map]

/-! ## Lemmas: sorting a list with ascending keys is the identity -/

theorem sortByKey_eq_self (l : List (Nat × ExecResult))
    (h : l.Pairwise (fun a b => a.1 < b.1)) : sortByKey l = l := by
  induction l with
  | nil => rfl
  | cons p rest ih =>
      have hrest : rest.Pairwise (fun a b => a.1 < b.1) := h.of_cons
      rw [sortByKey, ih hrest]
      cases rest with
      | nil => rfl
      | cons q rs =>
          have hpq : p.1 < q.1 :=
            (List.pairwise_cons.mp h).1 q (List.mem_cons_self _ _)
          simp [insertByKey, le_of_lt hpq]

/-! ## Lemmas: bootstrap-set insertion -/

theorem mem_insertBootNode (nodes : List BootNode) (n b : BootNode) :
    b ∈ insertBootNode nodes n ↔ b ∈ nodes ∨ b = n := by
  by_cases h : n ∈ nodes
  · simp only [insertBootNode, if_pos h]
    constructor
    · exact Or.inl
    · rintro (hb | rfl)
      · exact hb
      · exact h
  · simp [insertBootNode, if_neg h]

theorem insertBootNode_of_mem (nodes : List BootNode) (n : BootNode) (h : n ∈ nodes) :
    insertBootNode nodes n = nodes := by
  simp [insertBootNode, if_pos h]

theorem mem_addSerialized_fold (parseEnr : String → Option Enr) (b : BootNode) :
    ∀ (items : List String) (acc : List BootNode),
      b ∈ items.foldl
          (fun nodes item =>
            match parseEnr (trimStr item) with
            | some node => insertBootNode nodes (BootNode.enr node)
            | none => nodes)
          acc ↔
        b ∈ acc ∨ ∃ item, item ∈ items ∧
          ∃ e, parseEnr (trimStr item) = some e ∧ b = BootNode.enr e := by
  intro items
  induction items with
  | nil => intro acc; simp
  | cons item rest ih =>
      intro acc
      simp only [List.foldl_cons]
      cases hp : parseEnr (trimStr item) with
      | none =>
          rw [ih]
          constructor
          · rintro (hb | ⟨it, hit, e, he, rfl⟩)
            · exact Or.inl hb
            · exact Or.inr ⟨it, List.mem_cons_of_mem _ hit, e, he, rfl⟩
          · rintro (hb | ⟨it, hit, e, he, rfl⟩)
            · exact Or.inl hb
            · rcases List.mem_cons.mp hit with rfl | hit
              · rw [hp] at he; exact absurd he (by simp)
              · exact Or.inr ⟨it, hit, e, he, rfl⟩
      | some e0 =>
          rw [ih]
          constructor
          · rintro (hb | ⟨it, hit, e, he, rfl⟩)
            · rcases (mem_insertBootNode acc (BootNode.enr e0) b).mp hb with hb | rfl
              · exact Or.inl hb
              · exact Or.inr ⟨item, List.mem_cons_self _ _, e0, hp, rfl⟩
            · exact Or.inr ⟨it, List.mem_cons_of_mem _ hit, e, he, rfl⟩
          · rintro (hb | ⟨it, hit, e, he, rfl⟩)
            · exact Or.inl ((mem_insertBootNode acc (BootNode.enr e0) b).mpr (Or.inl hb))
            · rcases List.mem_cons.mp hit with rfl | hit
              · rw [hp] at he
                have he2 : e0 = e := by simpa using he
                exact Or.inl ((mem_insertBootNode acc (BootNode.enr e0) _).mpr
                  (Or.inr (by rw [he2])))
              · exact Or.inr ⟨it, hit, e, he, rfl⟩

theorem mem_addEnode_fold (parseEnode : String → Option EnodeRecord) (peerId : Nat → String)
    (b : BootNode) :
    ∀ (items : List String) (acc : List BootNode),
      b ∈ items.foldl
          (fun nodes node =>
            match parseEnode node with
            | some r => insertBootNode nodes (BootNode.enode (enodeMultiaddr peerId r))
            | none => nodes)
          acc ↔
        b ∈ acc ∨ ∃ item, item ∈ items ∧
          ∃ r, parseEnode item = some r ∧ b = BootNode.enode (enodeMultiaddr peerId r) := by
  intro items
  induction items with
  | nil => intro acc; simp
  | cons item rest ih =>
      intro acc
      simp only [List.foldl_cons]
      cases hp : parseEnode item with
      | none =>
          rw [ih]
          constructor
          · rintro (hb | ⟨it, hit, r, hr, rfl⟩)
            · exact Or.inl hb
            · exact Or.inr ⟨it, List.mem_cons_of_mem _ hit, r, hr, rfl⟩
          · rintro (hb | ⟨it, hit, r, hr, rfl⟩)
            · exact Or.inl hb
            · rcases List.mem_cons.mp hit with rfl | hit
              · rw [hp] at hr; exact absurd hr (by simp)
              · exact Or.inr ⟨it, hit, r, hr, rfl⟩
      | some r0 =>
          rw [ih]
          constructor
          · rintro (hb | ⟨it, hit, r, hr, rfl⟩)
            · rcases (mem_insertBootNode acc _ b).mp hb with hb | rfl
              · exact Or.inl hb
              · exact Or.inr ⟨item, List.mem_cons_self _ _, r0, hp, rfl⟩
            · exact Or.inr ⟨it, List.mem_cons_of_mem _ hit, r, hr, rfl⟩
          · rintro (hb | ⟨it, hit, r, hr, rfl⟩)
            · exact Or.inl ((mem_insertBootNode acc _ b).mpr (Or.inl hb))
            · rcases List.mem_cons.mp hit with rfl | hit
              · rw [hp] at hr
                have hr2 : r0 = r := by simpa using hr
                exact Or.inl ((mem_insertBootNode acc _ _).mpr (Or.inr (by rw [hr2])))
              · exact Or.inr ⟨it, hit, r, hr, rfl⟩

theorem addEnode_fold_idem (parseEnode : String → Option EnodeRecord) (peerId : Nat → String) :
    ∀ (items : List String) (acc : List BootNode),
      (∀ item, item ∈ items → ∀ r, parseEnode item = some r →
        BootNode.enode (enodeMultiaddr peerId r) ∈ acc) →
      items.foldl
          (fun nodes node =>
            match parseEnode node with
            | some r => insertBootNode nodes (BootNode.enode (enodeMultiaddr peerId r))
            | none => nodes)
          acc = acc := by
  intro items
  induction items with
  | nil => intro acc _; rfl
  | cons item rest ih =>
      intro acc hall
      simp only [List.foldl_cons]
      cases hp : parseEnode item with
      | none =>
          exact ih acc (fun it hit r hr => hall it (List.mem_cons_of_mem _ hit) r hr)
      | some r0 =>
          have hmem := hall item (List.mem_cons_self _ _) r0 hp
          have hstep : List.foldl
              (fun nodes node =>
                match parseEnode node with
                | some r => insertBootNode nodes (BootNode.enode (enodeMultiaddr peerId r))
                | none => nodes)
              (insertBootNode acc (BootNode.enode (enodeMultiaddr peerId r0))) rest
              = acc := by
            rw [insertBootNode_of_mem acc _ hmem]
            exact ih acc (fun it hit r hr => hall it (List.mem_cons_of_mem _ hit) r hr)
          exact hstep

/-! ## Lemmas: batch execution -/

theorem jobsOf_eq_some (ctx : ExecCtx) (st : SharedState) (env : Nat) (batch : List Nat)
    (txs : List Tx) (senders : List Nat)
    (hc : batch.all (fun a => decide (a < txs.length) && decide (a < senders.length)) = true) :
    jobsOf ctx st env batch txs senders
      = some (batch.map fun a =>
          (a, (txs.getD a default).hash,
            ctx.transact env (txs.getD a default) (senders.getD a 0) st.accounts)) := by
  unfold jobsOf
  rw [if_pos hc]

theorem executeBatch_ok_commit (ctx : ExecCtx) (st : SharedState) (env : Nat)
    (batch : List Nat) (txs : List Tx) (senders : List Nat) (completion : List Nat)
    (rs : List (Nat × ExecResult)) (st' : SharedState)
    (hcov : ∀ j, j < batch.length → j ∈ completion)
    (hok : executeBatch ctx st env batch txs senders completion = (Except.ok rs, st')) :
    ∃ ss, st' = st.commit ss ∧ ss.map Prod.fst = batch ∧ rs.map Prod.fst = batch := by
  unfold executeBatch at hok
  cases hjobs : jobsOf ctx st env batch txs senders with
  | none => rw [hjobs] at hok; simp at hok
  | some jobs =>
      rw [hjobs] at hok
      have hshape : jobs = batch.map (fun a =>
          (a, (txs.getD a default).hash,
            ctx.transact env (txs.getD a default) (senders.getD a 0) st.accounts)) := by
        unfold jobsOf at hjobs
        by_cases hc :
            batch.all (fun a => decide (a < txs.length) && decide (a < senders.length)) = true
        · rw [if_pos hc] at hjobs
          exact (Option.some.injEq _ _ ▸ hjobs).symm
        · rw [if_neg hc] at hjobs; cases hjobs
      have hlen : jobs.length = batch.length := by rw [hshape]; simp
      have hfo : foRun jobs completion [] 0 = jobs :=
        foRun_eq_of_cover _ _ (by rw [hlen]; exact hcov)
      simp only [hfo] at hok
      cases hcol : collectJobs jobs with
      | error p => rw [hcol] at hok; simp at hok
      | ok p =>
          rw [hcol] at hok
          simp only [Prod.mk.injEq, Except.ok.injEq] at hok
          obtain ⟨hrs, hst⟩ := hok
          obtain ⟨hk1, hk2⟩ := collectJobs_ok_keys jobs p.1 p.2 (by rw [hcol])
          have hjkeys : jobs.map Prod.fst = batch := by
            rw [hshape, List.map_map]
            have hcomp : (Prod.fst ∘ fun a =>
                (a, (txs.getD a default).hash,
                  ctx.transact env (txs.getD a default) (senders.getD a 0) st.accounts))
                = fun a : Nat => a := rfl
            rw [hcomp]
            exact List.map_id' batch
          exact ⟨p.2, hst.symm, by rw [hk2, hjkeys], by rw [← hrs, hk1, hjkeys]⟩

theorem executeBatch_evm_error (ctx : ExecCtx) (st : SharedState) (env : Nat)
    (batch : List Nat) (txs : List Tx) (senders : List Nat) (completion : List Nat)
    (i : Nat) (e0 : Nat)
    (hcov : ∀ j, j < batch.length → j ∈ completion)
    (hrange : ∀ a, a ∈ batch → a < txs.length ∧ a < senders.length)
    (hi : i ∈ batch)
    (hf : ctx.transact env (txs.getD i default) (senders.getD i 0) st.accounts
        = Except.error e0) :
    ∃ h e, executeBatch ctx st env batch txs senders completion
        = (Except.error (ExecError.evmErr h e), st) ∧
      ∃ i1, i1 ∈ batch ∧ (txs.getD i1 default).hash = h ∧
        ctx.transact env (txs.getD i1 default) (senders.getD i1 0) st.accounts
          = Except.error e := by
  have hcond :
      batch.all (fun a => decide (a < txs.length) && decide (a < senders.length)) = true := by
    rw [List.all_eq_true]
    intro a ha
    have := hrange a ha
    simp [this.1, this.2]
  have hjobs := jobsOf_eq_some ctx st env batch txs senders hcond
  have hfo : foRun (batch.map fun a =>
      (a, (txs.getD a default).hash,
        ctx.transact env (txs.getD a default) (senders.getD a 0) st.accounts))
      completion [] 0
      = batch.map fun a =>
        (a, (txs.getD a default).hash,
          ctx.transact env (txs.getD a default) (senders.getD a 0) st.accounts) :=
    foRun_eq_of_cover _ _ (by simpa using hcov)
  have hmem : (i, (txs.getD i default).hash,
      ctx.transact env (txs.getD i default) (senders.getD i 0) st.accounts)
      ∈ batch.map fun a =>
        (a, (txs.getD a default).hash,
          ctx.transact env (txs.getD a default) (senders.getD a 0) st.accounts) :=
    List.mem_map_of_mem _ hi
  obtain ⟨h, e, hcol, j1, hj1, hj1h, hj1e⟩ :=
    collectJobs_error_of_mem _ _ hmem ⟨e0, hf⟩
  refine ⟨h, e, ?_, ?_⟩
  · simp only [executeBatch, hjobs, hfo, hcol]
  · obtain ⟨i1, hi1, hji⟩ := List.mem_map.mp hj1
    refine ⟨i1, hi1, ?_, ?_⟩
    · rw [← hji] at hj1h; exact hj1h
    · rw [← hji] at hj1e; exact hj1e

theorem executeBatch_singleton (ctx : ExecCtx) (st : SharedState) (env : Nat) (i : Nat)
    (txs : List Tx) (senders : List Nat) (completion : List Nat) (h0 : 0 ∈ completion) :
    executeBatch ctx st env [i] txs senders completion =
      (if decide (i < txs.length) && decide (i < senders.length) then
        match ctx.transact env (txs.getD i default) (senders.getD i 0) st.accounts with
        | Except.error e =>
            (Except.error (ExecError.evmErr (txs.getD i default).hash e), st)
        | Except.ok ras => (Except.ok [(i, ras.result)], st.commit [(i, ras.state)])
      else (Except.error ExecError.panicErr, st)) := by
  by_cases hc : (decide (i < txs.length) && decide (i < senders.length)) = true
  · rw [if_pos hc]
    have hjobs : jobsOf ctx st env [i] txs senders
        = some [(i, (txs.getD i default).hash,
            ctx.transact env (txs.getD i default) (senders.getD i 0) st.accounts)] := by
      have := jobsOf_eq_some ctx st env [i] txs senders (by simpa using hc)
      simpa using this
    have hfo : foRun [(i, (txs.getD i default).hash,
        ctx.transact env (txs.getD i default) (senders.getD i 0) st.accounts)]
        completion [] 0
        = [(i, (txs.getD i default).hash,
            ctx.transact env (txs.getD i default) (senders.getD i 0) st.accounts)] := by
      apply foRun_eq_of_cover
      intro j hj
      simp only [List.length_singleton] at hj
      have hj0 : j = 0 := by omega
      subst hj0
      exact h0
    simp only [executeBatch, hjobs, hfo]
    cases ht : ctx.transact env (txs.getD i default) (senders.getD i 0) st.accounts with
    | error e => simp [collectJobs]
    | ok ras => simp [collectJobs, Except.map]
  · rw [if_neg hc]
    have hjobs : jobsOf ctx st env [i] txs senders = none := by
      unfold jobsOf
      rw [if_neg (by simpa using hc)]
    simp [executeBatch, hjobs]

/-! ## Lemmas: the sequential fallback runs the body in order -/

theorem runQueue_none_senders (ctx : ExecCtx) (st : SharedState) (env : Nat)
    (queue : List (List Nat)) (txs : List Tx) (scheds : Nat → List Nat) (k : Nat)
    (h : queue ≠ []) :
    runQueue ctx st env queue txs none scheds k = (Except.error ExecError.panicErr, st) := by
  cases queue with
  | nil => exact absurd rfl h
  | cons b bs => rfl

theorem runQueue_singletons (ctx : ExecCtx) (txs : List Tx) (senders : List Nat) (env : Nat)
    (scheds : Nat → List Nat) (hs : ∀ k, 0 ∈ scheds k) :
    ∀ (idxs : List Nat) (st : SharedState) (k : Nat),
      runQueue ctx st env (idxs.map fun i => [i]) txs (some senders) scheds k
        = seqRun ctx st env idxs txs senders := by
  intro idxs
  induction idxs with
  | nil => intro st k; rfl
  | cons i rest ih =>
      intro st k
      simp only [List.map_cons, runQueue, seqRun]
      rw [executeBatch_singleton ctx st env i txs senders (scheds k) (hs k)]
      by_cases hc : (decide (i < txs.length) && decide (i < senders.length)) = true
      · rw [if_pos hc, if_pos hc]
        cases ht : ctx.transact env (txs.getD i default) (senders.getD i 0) st.accounts with
        | error e => rfl
        | ok ras =>
            simp only [ih]
            cases hsr : seqRun ctx (st.commit [(i, ras.state)]) env rest txs senders with
            | mk res st2 =>
                cases res with
                | error e => rfl
                | ok rest1 => simp
      · rw [if_neg hc, if_neg hc]

theorem seqRun_ok_keys (ctx : ExecCtx) (txs : List Tx) (senders : List Nat) (env : Nat) :
    ∀ (idxs : List Nat) (st : SharedState) (rs : List (Nat × ExecResult)) (st' : SharedState),
      seqRun ctx st env idxs txs senders = (Except.ok rs, st') →
      rs.map Prod.fst = idxs := by
  intro idxs
  induction idxs with
  | nil =>
      intro st rs st' h
      simp only [seqRun, Prod.mk.injEq, Except.ok.injEq] at h
      rw [← h.1]
      rfl
  | cons i rest ih =>
      intro st rs st' h
      simp only [seqRun] at h
      by_cases hc : (decide (i < txs.length) && decide (i < senders.length)) = true
      · rw [if_pos hc] at h
        cases ht : ctx.transact env (txs.getD i default) (senders.getD i 0) st.accounts with
        | error e => rw [ht] at h; simp at h
        | ok ras =>
            rw [ht] at h
            simp only [] at h
            cases hsr : seqRun ctx (st.commit [(i, ras.state)]) env rest txs senders with
            | mk res st2 =>
                rw [hsr] at h
                cases res with
                | error e => simp at h
                | ok rest1 =>
                    simp only [Prod.mk.injEq, Except.ok.injEq] at h
                    rw [← h.1]
                    simp [ih _ _ _ hsr]
      · rw [if_neg hc] at h; simp at h

/-! ## Lemmas: effects of a successful execute on the execution data -/

theorem executeInner_ok_data (ctx : ExecCtx) (ex : Executor) (block : Block) (td : Nat)
    (so : Option (List Nat)) (sch : Nat → List Nat) (rs : List Receipt) (ex' : Executor)
    (h : executeInner ctx ex block td so sch = (Except.ok rs, ex')) :
    ex'.store = ex.store ∧ ex'.data.receipts = ex.data.receipts ∧
    (block.body = [] → ex'.data = ex.data) ∧
    (block.body ≠ [] →
      ex'.data.firstBlock
        = if ex.data.firstBlock.isNone then some block.number else ex.data.firstBlock) := by
  simp only [executeInner] at h
  cases hb : ctx.beaconRootCall block.timestamp block.number block.parentBeaconBlockRoot
      (preState ctx ex block).accounts with
  | error e => rw [hb] at h; simp at h
  | ok ro =>
      rw [hb] at h
      simp only [] at h
      by_cases hemp : block.body.isEmpty = true
      · rw [if_pos hemp] at h
        simp only [Prod.mk.injEq, Except.ok.injEq] at h
        obtain ⟨h1, h2⟩ := h
        subst h2
        refine ⟨rfl, rfl, fun _ => rfl, fun hne => ?_⟩
        exact absurd (List.isEmpty_iff.mp hemp) hne
      · rw [if_neg hemp] at h
        have hne : block.body ≠ [] := by
          intro hnil
          exact hemp (by rw [hnil]; rfl)
        cases hrq : runQueue ctx (beaconApply (preState ctx ex block) ro)
            (ctx.fillCfgAndBlockEnv block td)
            ((ex.store block.number).getD (defaultQueue block.body.length))
            block.body so sch 0 with
        | mk res st1 =>
            rw [hrq] at h
            cases res with
            | error e => simp at h
            | ok results =>
                simp only [] at h
                by_cases hg : block.gasUsed
                    ≠ (buildReceipts block.body (sortByKey results)).2
                · rw [if_pos hg] at h; simp at h
                · rw [if_neg hg] at h
                  simp only [Prod.mk.injEq, Except.ok.injEq] at h
                  obtain ⟨h1, h2⟩ := h
                  subst h2
                  refine ⟨rfl, ?_, fun hnil => absurd hnil hne, fun _ => ?_⟩
                  · by_cases hfb : ex.data.firstBlock.isNone = true
                    · simp [hfb]
                    · simp [hfb]
                  · by_cases hfb : ex.data.firstBlock.isNone = true
                    · simp [hfb]
                    · simp [hfb]

theorem saveReceipts_ok_data (ctx : ExecCtx) (ex : Executor) (rs : List Receipt)
    (u : Unit) (ex' : Executor) (h : saveReceipts ctx ex rs = (Except.ok u, ex')) :
    ex'.store = ex.store ∧ ex'.data.firstBlock = ex.data.firstBlock ∧
    ex'.data.receipts.length = ex.data.receipts.length + 1 := by
  unfold saveReceipts at h
  cases hp : ctx.pruneReceipts (rs.map some) with
  | error e => rw [hp] at h; simp at h
  | ok pruned =>
      rw [hp] at h
      simp only [Prod.mk.injEq] at h
      obtain ⟨_, h2⟩ := h
      subst h2
      exact ⟨rfl, rfl, by simp⟩

theorem execute_ok_data (ctx : ExecCtx) (ex : Executor) (block : Block) (td : Nat)
    (so : Option (List Nat)) (sch : Nat → List Nat) (ex' : Executor)
    (h : execute ctx ex block td so sch = (Except.ok (), ex')) :
    ex'.store = ex.store ∧
    ex'.data.receipts.length = ex.data.receipts.length + 1 ∧
    (∀ f, ex.data.firstBlock = some f → ex'.data.firstBlock = some f) ∧
    (ex.data.firstBlock = none → block.body ≠ [] →
      ex'.data.firstBlock = some block.number) := by
  unfold execute at h
  cases hinner : executeInner ctx ex block td so sch with
  | mk res ex1 =>
      rw [hinner] at h
      cases res with
      | error e => simp at h
      | ok rs0 =>
          simp only [] at h
          obtain ⟨hi1, hi2, hi3, hi4⟩ :=
            executeInner_ok_data ctx ex block td so sch rs0 ex1 hinner
          obtain ⟨hs1, hs2, hs3⟩ := saveReceipts_ok_data ctx ex1 rs0 () ex' h
          refine ⟨by rw [hs1, hi1], by rw [hs3, hi2], ?_, ?_⟩
          · intro f hf
            rw [hs2]
            by_cases hbody : block.body = []
            · rw [hi3 hbody, hf]
            · rw [hi4 hbody, hf]
              simp
          · intro hf hne
            rw [hs2, hi4 hne, hf]
            simp

theorem executeMany_preserved (ctx : ExecCtx) :
    ∀ (jobs : List BlockJob) (ex ex' : Executor) (f : Nat),
      ex.data.firstBlock = some f →
      executeMany ctx ex jobs = (Except.ok (), ex') →
      ex'.data.firstBlock = some f ∧
      ex'.data.receipts.length = ex.data.receipts.length + jobs.length := by
  intro jobs
  induction jobs with
  | nil =>
      intro ex ex' f hf h
      simp only [executeMany, Prod.mk.injEq] at h
      obtain ⟨_, h2⟩ := h
      subst h2
      simp [hf]
  | cons job rest ih =>
      intro ex ex' f hf h
      simp only [executeMany] at h
      cases hexe : execute ctx ex job.block job.td job.senders job.scheds with
      | mk res ex1 =>
          rw [hexe] at h
          cases res with
          | error e => simp at h
          | ok u =>
              simp only [] at h
              cases u
              obtain ⟨_, hlen, hpres, _⟩ :=
                execute_ok_data ctx ex job.block job.td job.senders job.scheds ex1 hexe
              obtain ⟨ih1, ih2⟩ := ih ex1 ex' f (hpres f hf) h
              refine ⟨ih1, ?_⟩
              rw [ih2, hlen]
              simp [List.length_cons]
              omega

/-! ## Claim theorems -/

/-- C1: for every batch whose transaction indices are strictly increasing,
`execute_batch` applies the resulting state diffs to the shared state in
that index order, regardless of the order in which the worker jobs
complete: for every completion order that completes each job, the
`(tx_idx, state)` pairs passed to `commit` have exactly the batch's indices
in ascending order. -/
theorem executeBatch_commit_in_index_order (ctx : ExecCtx) (st : SharedState) (env : Nat)
    (batch : List Nat) (txs : List Tx) (senders : List Nat) (completion : List Nat)
    (rs : List (Nat × ExecResult)) (st' : SharedState)
    (hasc : batch.Pairwise (· < ·))
    (hcov : ∀ j, j < batch.length → j ∈ completion)
    (hok : executeBatch ctx st env batch txs senders completion = (Except.ok rs, st')) :
    ∃ pairs, st'.ops = st.ops ++ [StateOp.commit pairs] ∧
      pairs.map Prod.fst = batch ∧ (pairs.map Prod.fst).Pairwise (· < ·) := by
  obtain ⟨ss, hst, hkeys, _⟩ :=
    executeBatch_ok_commit ctx st env batch txs senders completion rs st' hcov hok
  exact ⟨ss, by rw [hst]; rfl, hkeys, by rw [hkeys]; exact hasc⟩

/-- Transactions used by the batch-ordering witness. -/
def txsW1 : List Tx :=
  [{ hash := 0, txType := 0 }, { hash := 1, txType := 0 }, { hash := 2, txType := 0 },
   { hash := 3, txType := 0 }, { hash := 4, txType := 0 }, { hash := 5, txType := 0 }]

/-- Witness for C1: the batch of indices 3 and 5 whose workers complete in
the order second-then-first still commits in ascending index order. -/
theorem executeBatch_commit_in_index_order_witness :
    ∃ pairs,
      ((executeBatch trivialCtx freshState 0 [3, 5] txsW1 [0, 0, 0, 0, 0, 0] [1, 0]).2).ops
        = freshState.ops ++ [StateOp.commit pairs] ∧
      pairs.map Prod.fst = [3, 5] ∧ (pairs.map Prod.fst).Pairwise (· < ·) :=
  executeBatch_commit_in_index_order trivialCtx freshState 0 [3, 5] txsW1
    [0, 0, 0, 0, 0, 0] [1, 0]
    [(3, { gasUsed := 1, success := true, logs := [] }),
     (5, { gasUsed := 1, success := true, logs := [] })]
    ((executeBatch trivialCtx freshState 0 [3, 5] txsW1 [0, 0, 0, 0, 0, 0] [1, 0]).2)
    (by decide) (by decide) rfl

/-- C6: if the EVM execution of any transaction in the batch fails,
`execute_batch` returns `Validation(EVM)` carrying the hash of a failing
transaction, and the shared state is returned untouched: no state diff of
the batch is committed. -/
theorem executeBatch_failure_no_commit (ctx : ExecCtx) (st : SharedState) (env : Nat)
    (batch : List Nat) (txs : List Tx) (senders : List Nat) (completion : List Nat)
    (i : Nat) (e0 : Nat)
    (hcov : ∀ j, j < batch.length → j ∈ completion)
    (hrange : ∀ a, a ∈ batch → a < txs.length ∧ a < senders.length)
    (hi : i ∈ batch)
    (hf : ctx.transact env (txs.getD i default) (senders.getD i 0) st.accounts
        = Except.error e0) :
    ∃ h e, executeBatch ctx st env batch txs senders completion
        = (Except.error (ExecError.evmErr h e), st) ∧
      ∃ i1, i1 ∈ batch ∧ (txs.getD i1 default).hash = h ∧
        ctx.transact env (txs.getD i1 default) (senders.getD i1 0) st.accounts
          = Except.error e :=
  executeBatch_evm_error ctx st env batch txs senders completion i e0 hcov hrange hi hf

/-- Witness for C6: a batch of one transaction whose EVM run fails leaves the
shared state untouched and surfaces the transaction's hash. -/
theorem executeBatch_failure_no_commit_witness :
    ∃ h e, executeBatch failCtx freshState 0 [0] [{ hash := 11, txType := 0 }] [0] [0]
        = (Except.error (ExecError.evmErr h e), freshState) ∧
      ∃ i1, i1 ∈ [0] ∧ (([{ hash := 11, txType := 0 }] : List Tx).getD i1 default).hash = h ∧
        failCtx.transact 0 (([{ hash := 11, txType := 0 }] : List Tx).getD i1 default)
          (([0] : List Nat).getD i1 0) freshState.accounts = Except.error e :=
  executeBatch_failure_no_commit failCtx freshState 0 [0] [{ hash := 11, txType := 0 }]
    [0] [0] 0 9 (by decide) (by decide) (by decide) rfl

/-- C2: when the block-queue store has no queue for the block,
`execute_inner` (which then defaults to one singleton batch per transaction
in index order) produces exactly the result and post-state of the purely
sequential in-order execution of the body. -/
theorem executeInner_seq_fallback (ctx : ExecCtx) (ex : Executor) (block : Block) (td : Nat)
    (sendersOpt : Option (List Nat)) (scheds : Nat → List Nat)
    (hq : ex.store block.number = none)
    (hs : ∀ k, 0 ∈ scheds k) :
    executeInner ctx ex block td sendersOpt scheds
      = seqExecuteInnerSpec ctx ex block td sendersOpt := by
  simp only [executeInner, seqExecuteInnerSpec, hq, Option.getD_none, defaultQueue]
  cases hb : ctx.beaconRootCall block.timestamp block.number block.parentBeaconBlockRoot
      (preState ctx ex block).accounts with
  | error e => rfl
  | ok ro =>
      by_cases hemp : block.body.isEmpty = true
      · simp only [hemp, if_true]
      · have hemp' : block.body.isEmpty = false := by
          cases hbe : block.body.isEmpty
          · rfl
          · exact absurd hbe hemp
        simp only [hemp', Bool.false_eq_true, if_false]
        have hlen : block.body.length ≠ 0 := by
          intro h0
          rw [List.isEmpty_iff_length_eq_zero] at hemp
          exact hemp h0
        cases sendersOpt with
        | none =>
            rw [runQueue_none_senders ctx (beaconApply (preState ctx ex block) ro)
              (ctx.fillCfgAndBlockEnv block td)
              ((List.range block.body.length).map fun i => [i]) block.body scheds 0
              (by simp [List.range_eq_nil, hlen])]
        | some senders =>
            simp only []
            rw [runQueue_singletons ctx block.body senders (ctx.fillCfgAndBlockEnv block td)
              scheds hs (List.range block.body.length)
              (beaconApply (preState ctx ex block) ro) 0]
            cases hsr : seqRun ctx (beaconApply (preState ctx ex block) ro)
                (ctx.fillCfgAndBlockEnv block td) (List.range block.body.length)
                block.body senders with
            | mk res st1 =>
                cases res with
                | error e => rfl
                | ok results =>
                    simp only []
                    have hkeys := seqRun_ok_keys ctx block.body senders
                      (ctx.fillCfgAndBlockEnv block td) (List.range block.body.length)
                      _ results st1 hsr
                    have hsorted : sortByKey results = results := by
                      apply sortByKey_eq_self
                      have hpl : (results.map Prod.fst).Pairwise (· < ·) := by
                        rw [hkeys]
                        exact List.pairwise_lt_range _
                      exact List.pairwise_map.mp hpl
                    rw [hsorted]

/-- Block used by the sequential-fallback witness: two transactions, total
gas 2. -/
def blockW2 : Block :=
  { number := 5, timestamp := 0, gasUsed := 2, parentBeaconBlockRoot := none,
    body := [{ hash := 1, txType := 0 }, { hash := 2, txType := 0 }] }

/-- Witness for C2: a two-transaction block with no stored queue executes
exactly as the sequential reference does. -/
theorem executeInner_seq_fallback_witness :
    executeInner trivialCtx freshExecutor blockW2 0 (some [0, 0]) (fun _ => [0])
      = seqExecuteInnerSpec trivialCtx freshExecutor blockW2 0 (some [0, 0]) :=
  executeInner_seq_fallback trivialCtx freshExecutor blockW2 0 (some [0, 0]) (fun _ => [0])
    rfl (fun _ => List.mem_singleton_self 0)

/-- C3: for a block with non-empty body whose batches all executed, the
cumulative gas is computed over the body in index order; when it differs
from the header value, `execute_inner` fails with `BlockGasUsed` whose
`got` field is the computed sum and whose `expected` field is
`block.gas_used`, and `execute_inner` can return a result only when the
computed sum equals `block.gas_used`. -/
theorem executeInner_gas_check (ctx : ExecCtx) (ex : Executor) (block : Block) (td : Nat)
    (so : Option (List Nat)) (sch : Nat → List Nat) (ro : Option TxState)
    (results : List (Nat × ExecResult)) (st1 : SharedState)
    (hne : block.body ≠ [])
    (hb : ctx.beaconRootCall block.timestamp block.number block.parentBeaconBlockRoot
        (preState ctx ex block).accounts = Except.ok ro)
    (hrq : runQueue ctx (beaconApply (preState ctx ex block) ro)
        (ctx.fillCfgAndBlockEnv block td)
        ((ex.store block.number).getD (defaultQueue block.body.length))
        block.body so sch 0 = (Except.ok results, st1)) :
    ((buildReceipts block.body (sortByKey results)).2 ≠ block.gasUsed →
      executeInner ctx ex block td so sch
        = (Except.error (ExecError.blockGasUsed
            (buildReceipts block.body (sortByKey results)).2 block.gasUsed
            (gasSpentByTx (buildReceipts block.body (sortByKey results)).1)),
           { ex with state := st1 })) ∧
    (∀ rs1, (executeInner ctx ex block td so sch).1 = Except.ok rs1 →
      (buildReceipts block.body (sortByKey results)).2 = block.gasUsed) := by
  have hemp : block.body.isEmpty = false := by
    cases hbe : block.body.isEmpty
    · rfl
    · exact absurd (List.isEmpty_iff.mp hbe) hne
  have hfail : (buildReceipts block.body (sortByKey results)).2 ≠ block.gasUsed →
      executeInner ctx ex block td so sch
        = (Except.error (ExecError.blockGasUsed
            (buildReceipts block.body (sortByKey results)).2 block.gasUsed
            (gasSpentByTx (buildReceipts block.body (sortByKey results)).1)),
           { ex with state := st1 }) := by
    intro hgne
    simp only [executeInner, hb, hemp, Bool.false_eq_true, if_false, hrq]
    rw [if_pos (Ne.symm hgne)]
  refine ⟨hfail, ?_⟩
  intro rs1 hok1
  by_contra hgne
  rw [hfail hgne] at hok1
  simp at hok1

/-- Block used by the gas-mismatch witness: one transaction with real gas 1
but a header claiming 5. -/
def blockW3 : Block :=
  { number := 5, timestamp := 0, gasUsed := 5, parentBeaconBlockRoot := none,
    body := [{ hash := 77, txType := 2 }] }

/-- Witness for C3: the mismatching block fails with `BlockGasUsed` carrying
got 1 and expected 5. -/
theorem executeInner_gas_check_witness :
    executeInner trivialCtx freshExecutor blockW3 0 (some [0]) (fun _ => [0])
      = (Except.error (ExecError.blockGasUsed 1 5 [(0, 1)]),
         { freshExecutor with
            state := (preState trivialCtx freshExecutor blockW3).commit [(0, [])] }) :=
  (executeInner_gas_check trivialCtx freshExecutor blockW3 0 (some [0]) (fun _ => [0])
    none [(0, { gasUsed := 1, success := true, logs := [] })]
    ((preState trivialCtx freshExecutor blockW3).commit [(0, [])])
    (by decide) rfl rfl).1 (by decide)

/-- C7: for a block with empty body, `execute_inner` returns an empty
receipt list and changes nothing beyond the state-clear flag and the
beacon-root pre-call commit: no batch commit, no balance increments, no
transition merge, and `first_block` stays untouched. -/
theorem executeInner_empty_body (ctx : ExecCtx) (ex : Executor) (block : Block) (td : Nat)
    (so : Option (List Nat)) (sch : Nat → List Nat) (ro : Option TxState)
    (hbody : block.body = [])
    (hb : ctx.beaconRootCall block.timestamp block.number block.parentBeaconBlockRoot
        (preState ctx ex block).accounts = Except.ok ro) :
    executeInner ctx ex block td so sch
      = (Except.ok [], { ex with state := beaconApply (preState ctx ex block) ro }) ∧
    (ro = none →
      (beaconApply (preState ctx ex block) ro).ops
        = ex.state.ops ++ [StateOp.setFlag (ctx.stateClearEnabled block.number)]) ∧
    (∀ s, ro = some s →
      (beaconApply (preState ctx ex block) ro).ops
        = ex.state.ops ++ [StateOp.setFlag (ctx.stateClearEnabled block.number),
            StateOp.commit [(0, s)]]) := by
  refine ⟨?_, ?_, ?_⟩
  · have hemp : block.body.isEmpty = true := by rw [hbody]; rfl
    simp only [executeInner, hb, hemp, if_true]
  · rintro rfl
    rfl
  · rintro s rfl
    simp [beaconApply, SharedState.commit, preState, SharedState.setStateClearFlag]

/-- Block used by the empty-body witness. -/
def blockW7 : Block :=
  { number := 7, timestamp := 0, gasUsed := 0, parentBeaconBlockRoot := none, body := [] }

/-- Witness for C7: an empty block yields no receipts and only the
state-clear-flag trace entry. -/
theorem executeInner_empty_body_witness :
    executeInner trivialCtx freshExecutor blockW7 0 (some []) (fun _ => [0])
      = (Except.ok [],
         { freshExecutor with
            state := beaconApply (preState trivialCtx freshExecutor blockW7) none }) ∧
    (beaconApply (preState trivialCtx freshExecutor blockW7) none).ops
      = freshExecutor.state.ops ++ [StateOp.setFlag false] :=
  ⟨(executeInner_empty_body trivialCtx freshExecutor blockW7 0 (some []) (fun _ => [0])
      none rfl rfl).1,
   (executeInner_empty_body trivialCtx freshExecutor blockW7 0 (some []) (fun _ => [0])
      none rfl rfl).2.1 rfl⟩

/-- Empty-body block used by the C5 counterexample. -/
def blockEmpty9 : Block :=
  { number := 9, timestamp := 0, gasUsed := 0, parentBeaconBlockRoot := none, body := [] }

/-- C5 counterexample: a successful `execute` of an empty-body block leaves
`first_block` unset (the empty-body fast path returns before the
`first_block` update) while still pushing one receipts entry, so
`first_block` is not set on the first successful execute and the length law
fails for any sequence starting with an empty-body block. -/
theorem execute_emptyBlock_leaves_firstBlock_unset :
    ((execute trivialCtx freshExecutor blockEmpty9 0 (some []) (fun _ => [0])).1
        = Except.ok ()) ∧
    ((execute trivialCtx freshExecutor blockEmpty9 0 (some []) (fun _ => [0])).2.data.firstBlock
        = none) ∧
    ((execute trivialCtx freshExecutor blockEmpty9 0 (some [])
        (fun _ => [0])).2.data.receipts.length = 1) :=
  ⟨rfl, rfl, rfl⟩

/-- C5 (amended): for every sequence of successful `execute` calls on
consecutive block numbers starting from a fresh executor whose first block
has a non-empty body, `first_block` is set to the first block's number by
the first execute and never moves backward, and the accumulated receipts
vector has length `current_block - first_block + 1`. -/
theorem executeMany_consecutive_receipts (ctx : ExecCtx) (ex0 : Executor) (n0 : Nat)
    (jobs : List BlockJob) (ex' : Executor)
    (hfb : ex0.data.firstBlock = none)
    (hrc : ex0.data.receipts = [])
    (hnum : ∀ (i : Nat) (hi : i < jobs.length), (jobs.get ⟨i, hi⟩).block.number = n0 + i)
    (hne : jobs ≠ [])
    (hhead : ∀ hi : 0 < jobs.length, (jobs.get ⟨0, hi⟩).block.body ≠ [])
    (hok : executeMany ctx ex0 jobs = (Except.ok (), ex')) :
    ex'.data.firstBlock = some n0 ∧
    ex'.data.receipts.length = jobs.length ∧
    n0 + ex'.data.receipts.length = (n0 + (jobs.length - 1)) + 1 ∧
    (∀ (ex1 ex2 : Executor) (b : Block) (td : Nat) (so : Option (List Nat))
        (sch : Nat → List Nat) (f : Nat),
      ex1.data.firstBlock = some f →
      execute ctx ex1 b td so sch = (Except.ok (), ex2) →
      ex2.data.firstBlock = some f) := by
  cases jobs with
  | nil => exact absurd rfl hne
  | cons j0 rest =>
      simp only [executeMany] at hok
      cases hexe : execute ctx ex0 j0.block j0.td j0.senders j0.scheds with
      | mk res ex1 =>
          rw [hexe] at hok
          cases res with
          | error e => simp at hok
          | ok u =>
              cases u
              simp only [] at hok
              obtain ⟨_, hlen1, _, hset⟩ :=
                execute_ok_data ctx ex0 j0.block j0.td j0.senders j0.scheds ex1 hexe
              have hnum0 : j0.block.number = n0 := by
                have h0 := hnum 0 (by simp)
                simpa using h0
              have hbody0 : j0.block.body ≠ [] := hhead (by simp)
              have hfb1 : ex1.data.firstBlock = some n0 := by
                rw [← hnum0]
                exact hset hfb hbody0
              obtain ⟨hp1, hp2⟩ := executeMany_preserved ctx rest ex1 ex' n0 hfb1 hok
              have hlen : ex'.data.receipts.length = 1 + rest.length := by
                rw [hp2, hlen1, hrc]
                simp
              refine ⟨hp1, ?_, ?_, ?_⟩
              · rw [hlen]
                simp [List.length_cons]
                omega
              · rw [hlen]
                simp [List.length_cons]
                omega
              · intro ex1' ex2 b td so sch f hf hex
                exact (execute_ok_data ctx ex1' b td so sch ex2 hex).2.2.1 f hf

/-- First block of the C5 witness. -/
def blockW5a : Block :=
  { number := 5, timestamp := 0, gasUsed := 1, parentBeaconBlockRoot := none,
    body := [{ hash := 1, txType := 0 }] }

/-- Second block of the C5 witness. -/
def blockW5b : Block :=
  { number := 6, timestamp := 0, gasUsed := 1, parentBeaconBlockRoot := none,
    body := [{ hash := 2, txType := 0 }] }

/-- Two consecutive one-transaction blocks used by the C5 witness. -/
def jobsW5 : List BlockJob :=
  [{ block := blockW5a, td := 0, senders := some [0], scheds := fun _ => [0] },
   { block := blockW5b, td := 0, senders := some [0], scheds := fun _ => [0] }]

/-- Witness for the amended C5: after two successful consecutive executes
from a fresh executor, `first_block` is 5 and two receipt entries exist. -/
theorem executeMany_consecutive_receipts_witness :
    (executeMany trivialCtx freshExecutor jobsW5).2.data.firstBlock = some 5 ∧
    (executeMany trivialCtx freshExecutor jobsW5).2.data.receipts.length = 2 :=
  have h := executeMany_consecutive_receipts trivialCtx freshExecutor 5 jobsW5
    (executeMany trivialCtx freshExecutor jobsW5).2 rfl rfl
    (by
      intro i hi
      match i, hi with
      | 0, _ => rfl
      | 1, _ => rfl)
    (by simp [jobsW5])
    (by
      intro hi
      show blockW5a.body ≠ []
      decide)
    rfl
  ⟨h.1, h.2.1⟩

/-- Record with an IPv4 UDP socket but no TCP port at all, used by the C4
counterexample. -/
def enrNoTcpW : Enr :=
  { udp4Socket := some (1, 30303), udp6Socket := none, tcp4 := none, tcp6 := none, pk := 7 }

/-- C4 counterexample: a record with a UDP socket but no TCP port at all is
rejected with `IpVersionMismatchMempool`, not with `UnreachableMempool` as
the claim states; `try_into_reachable` never returns `UnreachableMempool`. -/
theorem tryIntoReachable_no_tcp_counterexample :
    tryIntoReachable (fun x => x) IpMode.ip4 enrNoTcpW
        = Except.error (DiscError.ipVersionMismatchMempool enrNoTcpW IpMode.ip4) ∧
    tryIntoReachable (fun x => x) IpMode.ip4 enrNoTcpW
        ≠ Except.error (DiscError.unreachableMempool enrNoTcpW) :=
  ⟨rfl, fun h => DiscError.noConfusion (Except.error.inj h)⟩

/-- C4 (amended): `try_into_reachable` returns `UnreachableDiscovery` when
the record has neither an IPv4 nor an IPv6 UDP socket,
`IpVersionMismatchDiscovery` when a UDP socket exists but none matches the
local IP mode, `IpVersionMismatchMempool` when the record lacks a TCP port
for the IP version selected by the local mode (including when it has no TCP
port at all; `UnreachableMempool` is never returned), and otherwise a
`NodeRecord` with the contactable socket's ip and port, the selected TCP
port (IPv4 preferred on DualStack) and the uncompressed id. -/
theorem tryIntoReachable_characterization (uid : Nat → Nat) (mode : IpMode) (enr : Enr) :
    (enr.udp4Socket = none → enr.udp6Socket = none →
      tryIntoReachable uid mode enr
        = Except.error (DiscError.unreachableDiscovery enr)) ∧
    (¬ (enr.udp4Socket = none ∧ enr.udp6Socket = none) →
      getContactableAddr mode enr = none →
      tryIntoReachable uid mode enr
        = Except.error (DiscError.ipVersionMismatchDiscovery enr mode)) ∧
    (∀ s, ¬ (enr.udp4Socket = none ∧ enr.udp6Socket = none) →
      getContactableAddr mode enr = some s → tcpSel mode enr = none →
      tryIntoReachable uid mode enr
        = Except.error (DiscError.ipVersionMismatchMempool enr mode)) ∧
    (∀ s p, ¬ (enr.udp4Socket = none ∧ enr.udp6Socket = none) →
      getContactableAddr mode enr = some s → tcpSel mode enr = some p →
      tryIntoReachable uid mode enr
        = Except.ok { address := s.1, tcpPort := p, udpPort := s.2, id := uid enr.pk }) := by
  refine ⟨?_, ?_, ?_, ?_⟩
  · intro h4 h6
    simp [tryIntoReachable, h4, h6]
  · intro hne hcontact
    simp [tryIntoReachable, hne, hcontact]
  · intro s hne hcontact htcp
    simp [tryIntoReachable, hne, hcontact, htcp]
  · intro s p hne hcontact htcp
    simp [tryIntoReachable, hne, hcontact, htcp]

/-- Fully reachable IPv4 record used by the C4 witness. -/
def enrFullW : Enr :=
  { udp4Socket := some (9, 30303), udp6Socket := none, tcp4 := some 30304,
    tcp6 := none, pk := 5 }

/-- Witness for the amended C4: a record with IPv4 UDP and TCP sockets
converts to the legacy record with those sockets and the derived id. -/
theorem tryIntoReachable_characterization_witness :
    tryIntoReachable (fun x => x + 100) IpMode.ip4 enrFullW
      = Except.ok { address := Ip.v4 9, tcpPort := 30304, udpPort := 30303, id := 105 } :=
  (tryIntoReachable_characterization (fun x => x + 100) IpMode.ip4 enrFullW).2.2.2
    (Ip.v4 9, 30303) 30304 (by decide) rfl rfl

/-- C8: `add_serialized_boot_nodes` inserts into the bootstrap set exactly
the signed records of those comma-separated items that, after trimming,
individually parse; malformed items are dropped and affect nothing else. -/
theorem addSerializedBootNodes_mem (parseEnr : String → Option Enr) (enrs : String)
    (init : List BootNode) (b : BootNode) :
    b ∈ addSerializedBootNodes parseEnr enrs init ↔
      b ∈ init ∨ ∃ item, item ∈ splitComma enrs ∧
        ∃ e, parseEnr (trimStr item) = some e ∧ b = BootNode.enr e :=
  mem_addSerialized_fold parseEnr b (splitComma enrs) init

/-- C9: every comma-separated item that parses as an enode URI is inserted
as the legacy boot node whose multiaddress is ip protocol, udp port, and
finally the canonical peer id of the record's public key; parsing the same
input twice adds nothing new. -/
theorem addEnodeBootNodes_spec (parseEnode : String → Option EnodeRecord)
    (peerId : Nat → String) (enodes : String) (init : List BootNode)
    (item : String) (r : EnodeRecord)
    (hitem : item ∈ splitComma enodes)
    (hparse : parseEnode item = some r) :
    BootNode.enode (enodeMultiaddr peerId r)
        ∈ addEnodeBootNodes parseEnode peerId enodes init ∧
    (enodeMultiaddr peerId r).getLast? = some (MultiaddrPart.p2p (peerId r.id)) ∧
    addEnodeBootNodes parseEnode peerId enodes (addEnodeBootNodes parseEnode peerId enodes init)
      = addEnodeBootNodes parseEnode peerId enodes init := by
  refine ⟨?_, ?_, ?_⟩
  · exact (mem_addEnode_fold parseEnode peerId _ (splitComma enodes) init).mpr
      (Or.inr ⟨item, hitem, r, hparse, rfl⟩)
  · obtain ⟨addr, up, rid⟩ := r
    cases addr <;> rfl
  · apply addEnode_fold_idem
    intro it hit r1 hr1
    exact (mem_addEnode_fold parseEnode peerId _ (splitComma enodes) init).mpr
      (Or.inr ⟨it, hit, r1, hr1, rfl⟩)

/-- Enode record used by the C9 witness. -/
def enodeRecW : EnodeRecord := { address := Ip.v4 33, udpPort := 30301, id := 42 }

/-- Parser used by the C9 witness: only the item of text en1 parses. -/
def parseEnodeW : String → Option EnodeRecord :=
  fun s => if s = "en1" then some enodeRecW else none

/-- Witness for C9 on the input of one good and one bad item. -/
theorem addEnodeBootNodes_spec_witness :
    BootNode.enode (enodeMultiaddr (fun _ => "peer") enodeRecW)
        ∈ addEnodeBootNodes parseEnodeW (fun _ => "peer") "en1,bad" [] ∧
    (enodeMultiaddr (fun _ => "peer") enodeRecW).getLast?
        = some (MultiaddrPart.p2p "peer") ∧
    addEnodeBootNodes parseEnodeW (fun _ => "peer") "en1,bad"
        (addEnodeBootNodes parseEnodeW (fun _ => "peer") "en1,bad" [])
      = addEnodeBootNodes parseEnodeW (fun _ => "peer") "en1,bad" [] :=
  addEnodeBootNodes_spec parseEnodeW (fun _ => "peer") "en1,bad" [] "en1" enodeRecW
    (by decide) (by decide)

/-- C10: `take_output_state` always succeeds, hands out the accumulated
receipts with the first block defaulted to 0 when unset, and resets the
executor's receipts so that an immediately following call returns an empty
receipts collection. -/
theorem takeOutputState_spec (ex : Executor) :
    (takeOutputState ex).1.receipts = ex.data.receipts ∧
    (takeOutputState ex).1.firstBlock = ex.data.firstBlock.getD 0 ∧
    ((takeOutputState ex).2).data.receipts = [] ∧
    (takeOutputState ((takeOutputState ex).2)).1.receipts = [] ∧
    ((takeOutputState ex).2).data.firstBlock = ex.data.firstBlock :=
  ⟨rfl, rfl, rfl, rfl, rfl⟩

end RethSpec
